import Mathlib

/-!
Verification of the `e2ee` crate (RSA-OAEP end-to-end encryption engine and
its C-compatible foreign boundary).

The development shallowly embeds the pipeline implemented by
`crates/lib/e2ee/src/server.rs`, `client.rs` and `ffi.rs`:

* `powmod` — modular exponentiation, the RSA primitive used by the `rsa`
  crate (`m.modpow(e, n)`);
* `sha256` / `mgf1` — the OAEP hash (`Oaep::new::<Sha256>()`) and its mask
  generation function, per RFC 8017;
* `i2osp` / `os2ip` — the octet-string/integer conversions of RFC 8017;
* `oaepPad` / `oaepUnpad` — EME-OAEP encoding and decoding exactly as the
  `rsa` crate performs them (empty label);
* `b64encode` / `b64decode` — the `base64` crate's `STANDARD_NO_PAD` engine
  (standard alphabet, no padding, trailing-bit check);
* `utf8Valid` — the UTF-8 validity check behind `String::from_utf8`;
* `E2ee` / `PublicE2ee` — the server and client identities with their
  `encrypt` / `decrypt` / accessor / persistence operations;
* models of the `ffi.rs` boundary functions.

Rust strings are modelled as `List Char`; byte strings as `List Nat` with
every element `< 256`.  The process-wide RNG draw made by OAEP encryption
(32 seed bytes from `OsRng`) is passed explicitly as the `seed` argument.
-/

set_option maxRecDepth 40000
set_option maxHeartbeats 4000000

/-- Fuel-driven square-and-multiply modular exponentiation.  The fuel only
bounds the recursion; the `e = 0` guard stops it after `log₂ e` steps. -/
def powmodF : Nat → Nat → Nat → Nat → Nat
  | 0, _, _, n => 1 % n
  | fuel+1, b, e, n =>
    if e = 0 then 1 % n
    else
      let r := powmodF fuel ((b * b) % n) (e / 2) n
      if e % 2 = 1 then ((b % n) * r) % n else r

/-- Modular exponentiation `b ^ e mod n`, the RSA primitive
(`BigUint::modpow` in the `rsa` crate). -/
def powmod (b e n : Nat) : Nat := powmodF (e + 1) b e n

theorem powmodF_eq (f : Nat) : ∀ e, e < 2 ^ f → ∀ b n, 0 < n →
    powmodF f b e n = b ^ e % n := by
  induction f with
  | zero =>
    intro e he b n _
    interval_cases e
    simp [powmodF]
  | succ f ih =>
    intro e he b n hn
    by_cases h0 : e = 0
    · simp [powmodF, h0]
    · have h2 : e < 2 * 2 ^ f := by
        rw [pow_succ] at he
        omega
      have hdiv : e / 2 < 2 ^ f := Nat.div_lt_of_lt_mul h2
      have hr : powmodF f ((b * b) % n) (e / 2) n = (b * b) ^ (e / 2) % n := by
        rw [ih (e / 2) hdiv ((b * b) % n) n hn, ← Nat.pow_mod]
      by_cases hodd : e % 2 = 1
      · have he2 : e = 2 * (e / 2) + 1 := by omega
        simp only [powmodF, h0, if_false, hodd, if_true]
        rw [hr, ← Nat.mul_mod]
        conv_rhs => rw [he2, pow_succ, pow_mul, pow_two]
        rw [mul_comm]
      · have he2 : e = 2 * (e / 2) := by omega
        simp only [powmodF, h0, if_false, hodd, if_true]
        rw [hr]
        conv_rhs => rw [he2, pow_mul, pow_two]

theorem powmod_eq (b e n : Nat) (hn : 0 < n) : powmod b e n = b ^ e % n := by
  have : e < 2 ^ (e + 1) :=
    lt_of_lt_of_le (Nat.lt_two_pow e) (Nat.pow_le_pow_right (by norm_num) (Nat.le_succ e))
  exact powmodF_eq (e + 1) e this b n hn

theorem powmod_lt (b e n : Nat) (hn : 0 < n) : powmod b e n < n := by
  rw [powmod_eq b e n hn]; exact Nat.mod_lt _ hn

/-- Fuel-driven byte-length computation (`n / 256` recursion). -/
def byteLenF : Nat → Nat → Nat
  | 0, _ => 0
  | f+1, n => if n = 0 then 0 else byteLenF f (n / 256) + 1

/-- Number of bytes of a natural number; `RsaPublicKey::size()` in the `rsa`
crate is this applied to the modulus. -/
def byteLen (n : Nat) : Nat := byteLenF n n

theorem byteLenF_zero (f : Nat) : byteLenF f 0 = 0 := by
  cases f <;> simp [byteLenF]

theorem byteLenF_spec (f : Nat) : ∀ n, n ≤ f →
    n < 256 ^ byteLenF f n ∧ (0 < n → 256 ^ (byteLenF f n - 1) ≤ n) := by
  induction f with
  | zero =>
    intro n hn
    have : n = 0 := by omega
    subst this
    simp [byteLenF]
  | succ f ih =>
    intro n hn
    by_cases h0 : n = 0
    · subst h0; simp [byteLenF]
    · have hrec : n / 256 ≤ f := by
        have : n / 256 < n := Nat.div_lt_self (by omega) (by norm_num)
        omega
      obtain ⟨ihu, ihl⟩ := ih (n / 256) hrec
      simp only [byteLenF, h0, if_false]
      constructor
      · have : n < 256 * (n / 256) + 256 := by
          have h1 := Nat.div_add_mod n 256
          have h2 := Nat.mod_lt n (show 0 < 256 by norm_num)
          omega
        calc n < 256 * (n / 256) + 256 := this
        _ ≤ 256 * (256 ^ byteLenF f (n / 256) - 1) + 256 := by
              have : n / 256 + 1 ≤ 256 ^ byteLenF f (n / 256) := ihu
              have h2 : n / 256 ≤ 256 ^ byteLenF f (n / 256) - 1 := by omega
              omega
        _ ≤ 256 ^ (byteLenF f (n / 256) + 1) := by
              have : (1:Nat) ≤ 256 ^ byteLenF f (n / 256) := Nat.one_le_pow _ _ (by norm_num)
              rw [pow_succ]
              omega
      · intro _
        by_cases hq : n / 256 = 0
        · rw [hq, byteLenF_zero]
          simpa using Nat.one_le_iff_ne_zero.mpr h0
        · have hpos : 0 < n / 256 := Nat.pos_of_ne_zero hq
          have hlow := ihl hpos
          have hk : 1 ≤ byteLenF f (n / 256) := by
            by_contra hcon
            have : byteLenF f (n / 256) = 0 := by omega
            rw [this] at ihu
            simp at ihu
            omega
          have : 256 ^ (byteLenF f (n / 256) + 1 - 1) = 256 ^ (byteLenF f (n / 256) - 1) * 256 := by
            rw [← pow_succ]
            congr 1
            omega
          rw [this]
          calc 256 ^ (byteLenF f (n / 256) - 1) * 256 ≤ n / 256 * 256 :=
                Nat.mul_le_mul_right _ hlow
          _ ≤ n := Nat.div_mul_le_self n 256

theorem byteLen_upper (n : Nat) : n < 256 ^ byteLen n :=
  (byteLenF_spec n n le_rfl).1

theorem byteLen_lower (n : Nat) (hn : 0 < n) : 256 ^ (byteLen n - 1) ≤ n :=
  (byteLenF_spec n n le_rfl).2 hn

/-- RFC 8017 I2OSP: big-endian octet string of length `k` for `x`. -/
def i2osp : Nat → Nat → List Nat
  | _, 0 => []
  | x, k+1 => i2osp (x / 256) k ++ [x % 256]

/-- RFC 8017 OS2IP: the integer denoted by a big-endian octet string. -/
def os2ip (l : List Nat) : Nat := l.foldl (fun acc b => acc * 256 + b) 0

theorem i2osp_length (x k : Nat) : (i2osp x k).length = k := by
  induction k generalizing x with
  | zero => simp [i2osp]
  | succ k ih => simp [i2osp, ih]

theorem i2osp_lt (x k : Nat) : ∀ b ∈ i2osp x k, b < 256 := by
  induction k generalizing x with
  | zero => simp [i2osp]
  | succ k ih =>
    intro b hb
    simp only [i2osp, List.mem_append, List.mem_singleton] at hb
    rcases hb with hb | hb
    · exact ih _ _ hb
    · subst hb; exact Nat.mod_lt _ (by norm_num)

theorem os2ip_foldl (l : List Nat) : ∀ a : Nat,
    l.foldl (fun acc b => acc * 256 + b) a = a * 256 ^ l.length + os2ip l := by
  induction l with
  | nil => intro a; simp [os2ip]
  | cons x l ih =>
    intro a
    simp only [os2ip, List.foldl_cons, List.length_cons]
    rw [ih (a * 256 + x), ih (0 * 256 + x)]
    ring

theorem os2ip_append (l₁ l₂ : List Nat) :
    os2ip (l₁ ++ l₂) = os2ip l₁ * 256 ^ l₂.length + os2ip l₂ := by
  simp only [os2ip, List.foldl_append]
  rw [os2ip_foldl l₂ (List.foldl (fun acc b => acc * 256 + b) 0 l₁)]
  rfl

theorem os2ip_cons (b : Nat) (l : List Nat) :
    os2ip (b :: l) = b * 256 ^ l.length + os2ip l := by
  have := os2ip_append [b] l
  simpa [os2ip] using this

theorem os2ip_lt (l : List Nat) (h : ∀ b ∈ l, b < 256) :
    os2ip l < 256 ^ l.length := by
  induction l with
  | nil => simp [os2ip]
  | cons x l ih =>
    rw [os2ip_cons]
    have hx : x < 256 := h x (by simp)
    have hl : os2ip l < 256 ^ l.length := ih (fun b hb => h b (by simp [hb]))
    simp only [List.length_cons]
    calc x * 256 ^ l.length + os2ip l
        ≤ 255 * 256 ^ l.length + os2ip l := by
          have : x ≤ 255 := by omega
          exact Nat.add_le_add_right (Nat.mul_le_mul_right _ this) _
    _ < 255 * 256 ^ l.length + 256 ^ l.length := Nat.add_lt_add_left hl _
    _ = 256 ^ (l.length + 1) := by ring

theorem os2ip_i2osp (x k : Nat) (h : x < 256 ^ k) : os2ip (i2osp x k) = x := by
  induction k generalizing x with
  | zero =>
    simp only [pow_zero, Nat.lt_one_iff] at h
    simp [i2osp, os2ip, h]
  | succ k ih =>
    simp only [i2osp]
    rw [os2ip_append]
    have hdiv : x / 256 < 256 ^ k := by
      rw [Nat.div_lt_iff_lt_mul (by norm_num : (0:Nat) < 256)]
      calc x < 256 ^ (k + 1) := h
      _ = 256 ^ k * 256 := by ring
    rw [ih _ hdiv]
    simp [os2ip]
    omega

theorem i2osp_snoc (a b k : Nat) (hb : b < 256) :
    i2osp (a * 256 + b) (k + 1) = i2osp a k ++ [b] := by
  simp only [i2osp]
  have h1 : (a * 256 + b) / 256 = a := by omega
  have h2 : (a * 256 + b) % 256 = b := by omega
  rw [h1, h2]

theorem i2osp_os2ip (l : List Nat) (h : ∀ b ∈ l, b < 256) :
    i2osp (os2ip l) l.length = l := by
  induction l using List.reverseRecOn with
  | nil => simp [i2osp, os2ip]
  | append_singleton l b ih =>
    have hb : b < 256 := h b (by simp)
    rw [os2ip_append]
    simp only [List.length_append, List.length_singleton]
    have : os2ip l * 256 ^ (1:Nat) + os2ip [b] = os2ip l * 256 + b := by
      simp [os2ip]
    rw [this, i2osp_snoc _ _ _ hb, ih (fun c hc => h c (by simp [hc]))]

/-- Pointwise xor of two byte strings (`mgf1_xor` applies masks this way);
truncates to the shorter operand like `Iterator::zip`. -/
def xorBytes (a m : List Nat) : List Nat := List.zipWith (fun x y => x ^^^ y) a m

theorem xorBytes_length (a m : List Nat) :
    (xorBytes a m).length = min a.length m.length := by
  simp [xorBytes]

theorem xorBytes_xorBytes (a m : List Nat) (h : a.length ≤ m.length) :
    xorBytes (xorBytes a m) m = a := by
  induction a generalizing m with
  | nil => simp [xorBytes]
  | cons x a ih =>
    cases m with
    | nil => simp at h
    | cons y m =>
      simp only [xorBytes, List.zipWith_cons_cons]
      rw [show (x ^^^ y) ^^^ y = x from Nat.xor_cancel_right y x]
      have := ih m (by simpa using h)
      simp only [xorBytes] at this
      rw [this]

theorem xor_lt_256 (x y : Nat) (hx : x < 256) (hy : y < 256) : x ^^^ y < 256 := by
  have : Nat.bitwise bne x y < 2 ^ 8 :=
    Nat.bitwise_lt (by simpa using hx) (by simpa using hy)
  simpa [HXor.hXor, Xor.xor, Nat.xor] using this

theorem xorBytes_lt (a m : List Nat) (ha : ∀ b ∈ a, b < 256) (hm : ∀ b ∈ m, b < 256) :
    ∀ b ∈ xorBytes a m, b < 256 := by
  induction a generalizing m with
  | nil => simp [xorBytes]
  | cons x a ih =>
    cases m with
    | nil => simp [xorBytes]
    | cons y m =>
      intro b hb
      simp only [xorBytes, List.zipWith_cons_cons, List.mem_cons] at hb
      rcases hb with hb | hb
      · subst hb
        exact xor_lt_256 x y (ha x (by simp)) (hm y (by simp))
      · exact ih m (fun c hc => ha c (by simp [hc])) (fun c hc => hm c (by simp [hc])) b hb

/-- Reduction modulo 2^32, the word size of SHA-256. -/
def w32 (x : Nat) : Nat := x % 4294967296

/-- Rotate a 32-bit word right by `k` bits. -/
def rotr (k x : Nat) : Nat := x / 2 ^ k + x % 2 ^ k * 2 ^ (32 - k)

/-- Shift a 32-bit word right by `k` bits. -/
def shr (k x : Nat) : Nat := x / 2 ^ k

/-- Bitwise complement of a 32-bit word. -/
def bnot32 (x : Nat) : Nat := x ^^^ 4294967295

/-- SHA-256 big sigma 0. -/
def bsig0 (x : Nat) : Nat := rotr 2 x ^^^ rotr 13 x ^^^ rotr 22 x

/-- SHA-256 big sigma 1. -/
def bsig1 (x : Nat) : Nat := rotr 6 x ^^^ rotr 11 x ^^^ rotr 25 x

/-- SHA-256 small sigma 0. -/
def ssig0 (x : Nat) : Nat := rotr 7 x ^^^ rotr 18 x ^^^ shr 3 x

/-- SHA-256 small sigma 1. -/
def ssig1 (x : Nat) : Nat := rotr 17 x ^^^ rotr 19 x ^^^ shr 10 x

/-- SHA-256 choice function. -/
def ch (x y z : Nat) : Nat := (x &&& y) ^^^ (bnot32 x &&& z)

/-- SHA-256 majority function. -/
def maj (x y z : Nat) : Nat := (x &&& y) ^^^ (x &&& z) ^^^ (y &&& z)

/-- The 64 SHA-256 round constants. -/
def shaK : List Nat := [1116352408, 1899447441, 3049323471, 3921009573, 961987163, 1508970993, 2453635748, 2870763221, 3624381080, 310598401, 607225278, 1426881987, 1925078388, 2162078206, 2614888103, 3248222580, 3835390401, 4022224774, 264347078, 604807628, 770255983, 1249150122, 1555081692, 1996064986, 2554220882, 2821834349, 2952996808, 3210313671, 3336571891, 3584528711, 113926993, 338241895, 666307205, 773529912, 1294757372, 1396182291, 1695183700, 1986661051, 2177026350, 2456956037, 2730485921, 2820302411, 3259730800, 3345764771, 3516065817, 3600352804, 4094571909, 275423344, 430227734, 506948616, 659060556, 883997877, 958139571, 1322822218, 1537002063, 1747873779, 1955562222, 2024104815, 2227730452, 2361852424, 2428436474, 2756734187, 3204031479, 3329325298]

/-- The SHA-256 initial hash value. -/
def shaH0 : List Nat := [1779033703, 3144134277, 1013904242, 2773480762, 1359893119, 2600822924, 528734635, 1541459225]

/-- Group a byte string into big-endian 32-bit words. -/
def toWords : List Nat → List Nat
  | b1 :: b2 :: b3 :: b4 :: rest => (((b1 * 256 + b2) * 256 + b3) * 256 + b4) :: toWords rest
  | _ => []

/-- Extend the message schedule; the word list is kept most-recent-first. -/
def extendW : Nat → List Nat → List Nat
  | 0, ws => ws
  | t+1, ws =>
      extendW t (w32 (ssig1 (ws.getD 1 0) + ws.getD 6 0 + ssig0 (ws.getD 14 0) + ws.getD 15 0) :: ws)

/-- One SHA-256 round on the working state `[a,b,c,d,e,f,g,h]`. -/
def shaRound (st : List Nat) (kw : Nat) : List Nat :=
  match st with
  | [a, b, c, d, e, f, g, h] =>
    let t1 := w32 (h + bsig1 e + ch e f g + kw)
    let t2 := w32 (bsig0 a + maj a b c)
    [w32 (t1 + t2), a, b, c, w32 (d + t1), e, f, g]
  | st => st

/-- SHA-256 compression of one 64-byte block into the running hash. -/
def shaCompress (h : List Nat) (block : List Nat) : List Nat :=
  let ws := (extendW 48 (toWords block).reverse).reverse
  let kws := List.zipWith (fun k w => w32 (k + w)) shaK ws
  let fin := kws.foldl shaRound h
  List.zipWith (fun x y => w32 (x + y)) h fin

/-- Fuel-driven chunking of a byte string into 64-byte blocks. -/
def toBlocksF : Nat → List Nat → List (List Nat)
  | 0, _ => []
  | _+1, [] => []
  | f+1, l => l.take 64 :: toBlocksF f (l.drop 64)

/-- SHA-256 of a byte string (the `Sha256` digest used for the OAEP label
hash and inside MGF1). -/
def sha256 (m : List Nat) : List Nat :=
  let padded := m ++ 128 :: (List.replicate ((119 - m.length % 64) % 64) 0 ++ i2osp (8 * m.length) 8)
  let hfin := (toBlocksF padded.length padded).foldl shaCompress shaH0
  hfin.flatMap (fun w => i2osp w 4)

/-- RFC 8017 MGF1 with SHA-256, as applied by `mgf1_xor` in the `rsa` crate. -/
def mgf1 (seed : List Nat) (len : Nat) : List Nat :=
  (((List.range ((len + 31) / 32)).map (fun i => sha256 (seed ++ i2osp i 4))).flatten).take len

/-- The value of a base64 digit character under the standard alphabet, or
`none` for any byte outside it (including the padding sign and whitespace). -/
def b64val (c : Char) : Option Nat :=
  let n := c.toNat
  if 65 ≤ n ∧ n ≤ 90 then some (n - 65)
  else if 97 ≤ n ∧ n ≤ 122 then some (n - 71)
  else if 48 ≤ n ∧ n ≤ 57 then some (n + 4)
  else if n = 43 then some 62
  else if n = 47 then some 63
  else none

/-- The standard-alphabet character for a 6-bit value. -/
def b64char (v : Nat) : Char :=
  if v < 26 then Char.ofNat (65 + v)
  else if v < 52 then Char.ofNat (97 + v - 26)
  else if v < 62 then Char.ofNat (48 + v - 52)
  else if v = 62 then Char.ofNat 43
  else Char.ofNat 47

/-- The 64 characters of the standard base64 alphabet. -/
def b64Alphabet : List Char := (List.range 64).map b64char

/-- Unpadded standard base64 encoding (`STANDARD_NO_PAD.encode`). -/
def b64encode : List Nat → List Char
  | [] => []
  | [a] => [b64char (a / 4), b64char (a % 4 * 16)]
  | [a, b] => [b64char (a / 4), b64char (a % 4 * 16 + b / 16), b64char (b % 16 * 4)]
  | a :: b :: c :: rest =>
      b64char (a / 4) :: b64char (a % 4 * 16 + b / 16) :: b64char (b % 16 * 4 + c / 64) ::
        b64char (c % 64) :: b64encode rest

/-- Decoding failures of the `base64` crate surfaced by `STANDARD_NO_PAD.decode`:
a byte outside the alphabet, a length `≡ 1 (mod 4)`, or nonzero trailing
bits in the final symbol. -/
inductive B64Error
  | invalidByte
  | invalidLength
  | invalidLastSymbol
deriving DecidableEq, Repr

/-- Map every character to its 6-bit value, failing on the first byte
outside the alphabet. -/
def b64vals : List Char → Except B64Error (List Nat)
  | [] => .ok []
  | c :: r =>
    match b64val c, b64vals r with
    | some v, .ok vs => .ok (v :: vs)
    | some _, .error e => .error e
    | none, _ => .error .invalidByte

/-- Reassemble bytes from 6-bit values, enforcing the no-pad length rule and
the zero-trailing-bits rule of the `base64` crate. -/
def b64unchunk : List Nat → Except B64Error (List Nat)
  | [] => .ok []
  | [_] => .error .invalidLength
  | [a, b] => if b % 16 = 0 then .ok [a * 4 + b / 16] else .error .invalidLastSymbol
  | [a, b, c] =>
      if c % 4 = 0 then .ok [a * 4 + b / 16, b % 16 * 16 + c / 4]
      else .error .invalidLastSymbol
  | a :: b :: c :: d :: rest =>
    match b64unchunk rest with
    | .ok t => .ok ((a * 4 + b / 16) :: (b % 16 * 16 + c / 4) :: (c % 4 * 64 + d) :: t)
    | .error e => .error e

/-- Unpadded standard base64 decoding (`STANDARD_NO_PAD.decode`). -/
def b64decode (s : List Char) : Except B64Error (List Nat) :=
  match b64vals s with
  | .ok vs => b64unchunk vs
  | .error e => .error e

/-- UTF-8 validity of a byte string, per the checks behind
`String::from_utf8` (RFC 3629: no overlongs, no surrogates, max U+10FFFF). -/
def utf8Valid : List Nat → Bool
  | [] => true
  | a :: l =>
    if a < 128 then utf8Valid l
    else if a < 194 then false
    else if a < 224 then
      match l with
      | b :: l2 => decide (128 ≤ b ∧ b < 192) && utf8Valid l2
      | [] => false
    else if a < 240 then
      match l with
      | b :: c :: l3 =>
          (if a = 224 then decide (160 ≤ b ∧ b < 192)
           else if a = 237 then decide (128 ≤ b ∧ b < 160)
           else decide (128 ≤ b ∧ b < 192)) &&
          decide (128 ≤ c ∧ c < 192) && utf8Valid l3
      | _ => false
    else if a < 245 then
      match l with
      | b :: c :: d :: l4 =>
          (if a = 240 then decide (144 ≤ b ∧ b < 192)
           else if a = 244 then decide (128 ≤ b ∧ b < 144)
           else decide (128 ≤ b ∧ b < 192)) &&
          decide (128 ≤ c ∧ c < 192) && decide (128 ≤ d ∧ d < 192) && utf8Valid l4
      | _ => false
    else false

deriving instance DecidableEq for Except

/-- The OAEP hash length: SHA-256 produces 32 bytes. -/
def hLen : Nat := 32

/-- Failures of the `rsa` crate surfaced by OAEP encryption/decryption:
`Error::MessageTooLong` for an oversized plaintext and `Error::Decryption`
for any padding-check or length failure during decryption. -/
inductive RsaError
  | messageTooLong
  | decryption
deriving DecidableEq, Repr

/-- EME-OAEP encoding (RFC 8017 section 7.1.1) with an empty label, exactly
as the `rsa` crate performs it: refuse a message longer than
`k - 2*hLen - 2`, then build `EM = 0x00 || maskedSeed || maskedDB`. -/
def oaepPad (k : Nat) (msg seed : List Nat) : Except RsaError (List Nat) :=
  if msg.length + 2 * hLen + 2 > k then .error .messageTooLong
  else
    let db := sha256 [] ++ (List.replicate (k - msg.length - 2 * hLen - 2) 0 ++ 1 :: msg)
    let maskedDb := xorBytes db (mgf1 seed (k - hLen - 1))
    let maskedSeed := xorBytes seed (mgf1 maskedDb hLen)
    .ok (0 :: (maskedSeed ++ maskedDb))

/-- RSA-OAEP encryption of a byte string: pad, apply `m ↦ m^e mod n`, and
serialize to `k` octets.  `seed` is the 32-byte random draw OAEP makes. -/
def rsaEncryptBytes (key_n key_e : Nat) (msg seed : List Nat) : Except RsaError (List Nat) :=
  let k := byteLen key_n
  match oaepPad k msg seed with
  | .error e => .error e
  | .ok em => .ok (i2osp (powmod (os2ip em) key_e key_n) k)

/-- Scan of the unmasked data block past the padding string: skip zeros,
require the `0x01` separator, return the rest. -/
def unpadSep : List Nat → Except RsaError (List Nat)
  | [] => .error .decryption
  | b :: r => if b = 0 then unpadSep r else if b = 1 then .ok r else .error .decryption

/-- EME-OAEP decoding (RFC 8017 section 7.1.2) with an empty label: unmask,
check the leading zero byte and the label hash, then strip the padding. -/
def oaepUnpad (k : Nat) (em : List Nat) : Except RsaError (List Nat) :=
  if k < 2 * hLen + 2 then .error .decryption
  else
    match em with
    | [] => .error .decryption
    | y :: rest =>
      let maskedDb := rest.drop hLen
      let seed := xorBytes (rest.take hLen) (mgf1 maskedDb hLen)
      let db := xorBytes maskedDb (mgf1 seed maskedDb.length)
      if y = 0 ∧ db.take hLen = sha256 [] then unpadSep (db.drop hLen)
      else .error .decryption

/-- RSA-OAEP decryption of a byte string: check the ciphertext length and
range, apply `c ↦ c^d mod n`, and decode the padding. -/
def rsaDecryptBytes (key_n key_d : Nat) (ct : List Nat) : Except RsaError (List Nat) :=
  let k := byteLen key_n
  if ct.length ≠ k then .error .decryption
  else if os2ip ct ≥ key_n then .error .decryption
  else oaepUnpad k (i2osp (powmod (os2ip ct) key_d key_n) k)

/-- Modelled from the spec: the server error enum `E2eeError` lives in
`crates/lib/e2ee/src/server/error.rs`, which is not present under `src/`;
its variants are reconstructed from their uses in `server.rs`
(`E2eeError::Pkcs8`, `E2eeError::Spki`, `E2eeError::FileWriteError`, and the
`?`-conversions from `rsa`, `base64` and `FromUtf8` errors) mirroring the
sibling `PublicE2eeError` enum in `client/error.rs` and the spec's error
taxonomy (`CryptoError`, `EncodingError`, `PersistenceError`,
`KeyFormatError`). -/
inductive E2eeError
  | rsa (e : RsaError)
  | pkcs8
  | spki
  | encoding
  | decoding (e : B64Error)
  | fileWriteError (msg : List Char)
deriving DecidableEq, Repr

/-- The client error enum `PublicE2eeError` of `client/error.rs`. -/
inductive PublicE2eeError
  | rsa (e : RsaError)
  | pkcs8
  | spki
  | encoding
  | decoding (e : B64Error)
deriving DecidableEq, Repr

/-- An RSA public key as the `rsa` crate holds it: modulus and public
exponent. -/
structure RsaPublicKey where
  n : Nat
  e : Nat
deriving DecidableEq, Repr

/-- An RSA private key: modulus and private exponent (the fields the
decryption path uses). -/
structure RsaPrivateKey where
  n : Nat
  d : Nat
deriving DecidableEq, Repr

/-- The server-side identity of `server.rs`: both keys plus the two PEM
strings cached verbatim at construction. -/
structure E2ee where
  private_key : RsaPrivateKey
  public_key : RsaPublicKey
  private_key_pem : List Char
  public_key_pem : List Char
deriving DecidableEq, Repr

/-- The client-side identity of `client.rs`: the public key plus its PEM
string cached verbatim at construction. -/
structure PublicE2ee where
  public_key : RsaPublicKey
  public_key_pem : List Char
deriving DecidableEq, Repr

/-- Accessor `E2ee::get_private_key_pem`. -/
def E2ee.get_private_key_pem (srv : E2ee) : List Char := srv.private_key_pem

/-- Accessor `E2ee::get_public_key_pem`. -/
def E2ee.get_public_key_pem (srv : E2ee) : List Char := srv.public_key_pem

/-- Accessor `PublicE2ee::get_public_key_pem`. -/
def PublicE2ee.get_public_key_pem (cl : PublicE2ee) : List Char := cl.public_key_pem

/-- The UTF-8 bytes of a string (`str::as_bytes` on a Rust string). -/
def strBytes (s : List Char) : List Nat := (String.mk s).toUTF8.toList.map UInt8.toNat

/-- `E2ee::encrypt`: OAEP-encrypt the message bytes under the held public
key, then base64-encode without padding.  `seed` is the OAEP random draw. -/
def E2ee.encrypt (srv : E2ee) (message seed : List Nat) : Except E2eeError (List Char) :=
  match rsaEncryptBytes srv.public_key.n srv.public_key.e message seed with
  | .ok data => .ok (b64encode data)
  | .error e => .error (.rsa e)

/-- `E2ee::decrypt`: base64-decode, OAEP-decrypt under the held private key,
then require the plaintext bytes to be valid UTF-8. -/
def E2ee.decrypt (srv : E2ee) (ciphertext : List Char) : Except E2eeError (List Nat) :=
  match b64decode ciphertext with
  | .error e => .error (.decoding e)
  | .ok data =>
    match rsaDecryptBytes srv.private_key.n srv.private_key.d data with
    | .error e => .error (.rsa e)
    | .ok bytes => if utf8Valid bytes then .ok bytes else .error .encoding

/-- `PublicE2ee::encrypt`: identical to the server path but under the
client error enum. -/
def PublicE2ee.encrypt (cl : PublicE2ee) (message seed : List Nat) :
    Except PublicE2eeError (List Char) :=
  match rsaEncryptBytes cl.public_key.n cl.public_key.e message seed with
  | .ok data => .ok (b64encode data)
  | .error e => .error (.rsa e)

/-- `E2ee::new_from_pem`: parse the public key, then the private key (the
PEM decoders of the `pkcs8`/`spki` crates are taken as parameters), and
cache both construction strings verbatim. -/
def E2ee.new_from_pem
    (parsePublicPem : List Char → Except E2eeError RsaPublicKey)
    (parsePrivatePem : List Char → Except E2eeError RsaPrivateKey)
    (private_key_pem public_key_pem : List Char) : Except E2eeError E2ee :=
  match parsePublicPem public_key_pem with
  | .error e => .error e
  | .ok pk =>
    match parsePrivatePem private_key_pem with
    | .error e => .error e
    | .ok sk => .ok ⟨sk, pk, private_key_pem, public_key_pem⟩

/-- `PublicE2ee::new`: parse the public key and cache the construction
string verbatim. -/
def PublicE2ee.new
    (parsePublicPem : List Char → Except PublicE2eeError RsaPublicKey)
    (public_key_pem : List Char) : Except PublicE2eeError PublicE2ee :=
  match parsePublicPem public_key_pem with
  | .error e => .error e
  | .ok pk => .ok ⟨pk, public_key_pem⟩

/-- A file system as an association list from paths to text contents; the
most recent write for a path shadows older entries. -/
abbrev FileSys := List (List Char × List Char)

/-- Read back a file (`std::fs::read_to_string`). -/
def fsRead (fs : FileSys) (path : List Char) : Option (List Char) :=
  match fs.find? (fun kv => kv.1 = path) with
  | some kv => some kv.2
  | none => none

/-- Write a file, replacing any previous contents at that path. -/
def fsWrite (fs : FileSys) (path contents : List Char) : FileSys :=
  (path, contents) :: fs

/-- `E2ee::save_keys_to_files`: create the private-key file, create the
public-key file, write the cached private PEM verbatim, write the cached
public PEM verbatim; each step maps its failure to
`E2eeError::FileWriteError`.  The environment is modelled by the
`canCreate`/`canWrite` predicates; creating truncates the file. -/
def E2ee.save_keys_to_files (canCreate canWrite : List Char → Bool) (srv : E2ee)
    (private_key_file_path public_key_file_path : List Char) (fs : FileSys) :
    Except E2eeError FileSys :=
  if ¬ canCreate private_key_file_path then
    .error (.fileWriteError "Failed to create private key file".toList)
  else
    let fs1 := fsWrite fs private_key_file_path []
    if ¬ canCreate public_key_file_path then
      .error (.fileWriteError "Failed to create public key file".toList)
    else
      let fs2 := fsWrite fs1 public_key_file_path []
      if ¬ canWrite private_key_file_path then
        .error (.fileWriteError "Failed to write private key to file".toList)
      else
        let fs3 := fsWrite fs2 private_key_file_path srv.private_key_pem
        if ¬ canWrite public_key_file_path then
          .error (.fileWriteError "Failed to write public key to file".toList)
        else
          .ok (fsWrite fs3 public_key_file_path srv.public_key_pem)

/-- The key sizes accepted for RSA key generation (`server.rs`). -/
inductive KeySize
  | bit1024
  | bit2048
  | bit3072
  | bit4096
deriving DecidableEq, Repr

/-- `KeySize::as_usize`. -/
def KeySize.as_usize : KeySize → Nat
  | .bit1024 => 1024
  | .bit2048 => 2048
  | .bit3072 => 3072
  | .bit4096 => 4096

/-- The `match key_size` table at the top of `e2ee_server_new` in `ffi.rs`:
only the four listed integers map to a `KeySize`. -/
def keySizeOfInt (key_size : Int) : Option KeySize :=
  if key_size = 1024 then some .bit1024
  else if key_size = 2048 then some .bit2048
  else if key_size = 3072 then some .bit3072
  else if key_size = 4096 then some .bit4096
  else none

/-- `e2ee_server_new`: reject an integer outside the key-size table with a
null pointer, otherwise run `E2ee::new` (key generation, passed in as `gen`
since it draws from `OsRng`) and collapse its error to a null pointer.
A returned `some` models a non-null boxed handle. -/
def e2ee_server_new (key_size : Int) (gen : KeySize → Except E2eeError E2ee) : Option E2ee :=
  match keySizeOfInt key_size with
  | none => none
  | some ks =>
    match gen ks with
    | .ok sdk => some sdk
    | .error _ => none

/-- A heap of live allocations, identified by addresses. -/
abbrev Heap := List Nat

/-- `e2ee_server_free`: guarded by an `is_null` check, so a null handle is
a no-op; otherwise the allocation is dropped. -/
def e2ee_server_free (ptr : Option Nat) (h : Heap) : Heap :=
  match ptr with
  | none => h
  | some a => List.erase h a

/-- `e2ee_client_free`: same null guard as `e2ee_server_free`. -/
def e2ee_client_free (ptr : Option Nat) (h : Heap) : Heap :=
  match ptr with
  | none => h
  | some a => List.erase h a

/-- `e2ee_server_free_string`: calls `CString::from_raw` with no null
check; passing a null pointer violates `from_raw`'s contract, modelled as
the undefined-behavior result `none`. -/
def e2ee_server_free_string (ptr : Option Nat) (h : Heap) : Option Heap :=
  match ptr with
  | none => none
  | some a => some (List.erase h a)

/-- `CString::new`: fails precisely when the bytes contain a NUL byte. -/
def cstringNew (bytes : List Nat) : Option (List Nat) :=
  if 0 ∈ bytes then none else some bytes

/-- Outcome of an FFI call returning a C string: a Rust panic (from
`.unwrap()`), a null pointer, or an owned string. -/
inductive FfiStrResult
  | panic
  | nullPtr
  | str (s : List Nat)
deriving DecidableEq, Repr

/-- `e2ee_server_decrypt`: run `E2ee::decrypt`; an error becomes a null
pointer, a success is rebuilt as a C string with
`CString::new(decrypted).unwrap()` — which panics on interior NUL bytes. -/
def e2ee_server_decrypt (srv : E2ee) (ciphertext : List Char) : FfiStrResult :=
  match E2ee.decrypt srv ciphertext with
  | .error _ => .nullPtr
  | .ok bytes =>
    match cstringNew bytes with
    | none => .panic
    | some s => .str s

theorem shaRound_length (st : List Nat) (kw : Nat) : (shaRound st kw).length = st.length := by
  unfold shaRound
  split
  · simp
  · rfl

theorem foldl_shaRound_length (l : List Nat) (st : List Nat) :
    (l.foldl shaRound st).length = st.length := by
  induction l generalizing st with
  | nil => rfl
  | cons x l ih => simp [List.foldl_cons, ih, shaRound_length]

theorem shaCompress_length (h b : List Nat) (hh : h.length = 8) :
    (shaCompress h b).length = 8 := by
  unfold shaCompress
  simp [foldl_shaRound_length, hh]

theorem foldl_shaCompress_length (bs : List (List Nat)) (h : List Nat) (hh : h.length = 8) :
    (bs.foldl shaCompress h).length = 8 := by
  induction bs generalizing h with
  | nil => simpa
  | cons b bs ih => simp [List.foldl_cons, ih _ (shaCompress_length h b hh)]

theorem bind_i2osp_length (ws : List Nat) :
    (ws.flatMap (fun w => i2osp w 4)).length = 4 * ws.length := by
  induction ws with
  | nil => rfl
  | cons w ws ih =>
    simp only [List.flatMap_cons, List.length_append, List.length_cons, ih, i2osp_length]
    ring

theorem bind_i2osp_lt (ws : List Nat) : ∀ b ∈ ws.flatMap (fun w => i2osp w 4), b < 256 := by
  intro b hb
  rw [List.mem_flatMap] at hb
  obtain ⟨w, _, hw⟩ := hb
  exact i2osp_lt _ _ _ hw

theorem sha256_length (m : List Nat) : (sha256 m).length = 32 := by
  unfold sha256
  rw [bind_i2osp_length, foldl_shaCompress_length _ _ (show shaH0.length = 8 from rfl)]

theorem sha256_lt (m : List Nat) : ∀ b ∈ sha256 m, b < 256 := by
  unfold sha256
  exact bind_i2osp_lt _

theorem join_map_sha_length (g : Nat → List Nat) (hg : ∀ i, (g i).length = 32) (l : List Nat) :
    ((l.map g).flatten).length = 32 * l.length := by
  induction l with
  | nil => rfl
  | cons x l ih =>
    show ((g x :: List.map g l).flatten).length = 32 * (x :: l).length
    rw [List.flatten_cons, List.length_append, ih, hg, List.length_cons]
    ring

theorem mgf1_length (seed : List Nat) (len : Nat) : (mgf1 seed len).length = len := by
  unfold mgf1
  rw [List.length_take, join_map_sha_length _ (fun i => sha256_length _), List.length_range]
  have : len ≤ 32 * ((len + 31) / 32) := by omega
  omega

theorem mgf1_lt (seed : List Nat) (len : Nat) : ∀ b ∈ mgf1 seed len, b < 256 := by
  intro b hb
  unfold mgf1 at hb
  have hb2 := List.take_subset _ _ hb
  rw [List.mem_flatten] at hb2
  obtain ⟨l', hl', hbl⟩ := hb2
  rw [List.mem_map] at hl'
  obtain ⟨i, _, rfl⟩ := hl'
  exact sha256_lt _ _ hbl

theorem b64val_b64char : ∀ v, v < 64 → b64val (b64char v) = some v := by decide

theorem b64char_mem_alphabet : ∀ v, v < 64 → b64char v ∈ b64Alphabet := by decide

theorem b64_roundtrip (l : List Nat) (h : ∀ b ∈ l, b < 256) :
    b64decode (b64encode l) = .ok l := by
  induction l using b64encode.induct with
  | case1 => rfl
  | case2 a =>
    have ha : a < 256 := h a (by simp)
    have h1 : a / 4 < 64 := by omega
    have h2 : a % 4 * 16 < 64 := by omega
    simp only [b64encode, b64decode, b64vals, b64val_b64char _ h1, b64val_b64char _ h2]
    simp only [b64unchunk]
    have h3 : a % 4 * 16 % 16 = 0 := by omega
    rw [if_pos h3]
    have h4 : a / 4 * 4 + a % 4 * 16 / 16 = a := by omega
    rw [h4]
  | case3 a b =>
    have ha : a < 256 := h a (by simp)
    have hb : b < 256 := h b (by simp)
    have h1 : a / 4 < 64 := by omega
    have h2 : a % 4 * 16 + b / 16 < 64 := by omega
    have h3 : b % 16 * 4 < 64 := by omega
    simp only [b64encode, b64decode, b64vals, b64val_b64char _ h1, b64val_b64char _ h2,
      b64val_b64char _ h3]
    simp only [b64unchunk]
    have h4 : b % 16 * 4 % 4 = 0 := by omega
    rw [if_pos h4]
    have h5 : a / 4 * 4 + (a % 4 * 16 + b / 16) / 16 = a := by omega
    have h6 : (a % 4 * 16 + b / 16) % 16 * 16 + b % 16 * 4 / 4 = b := by omega
    rw [h5, h6]
  | case4 a b c rest ih =>
    have ha : a < 256 := h a (by simp)
    have hb : b < 256 := h b (by simp)
    have hc : c < 256 := h c (by simp)
    have hrest : ∀ x ∈ rest, x < 256 := fun x hx => h x (by simp [hx])
    have ihr := ih hrest
    have h1 : a / 4 < 64 := by omega
    have h2 : a % 4 * 16 + b / 16 < 64 := by omega
    have h3 : b % 16 * 4 + c / 64 < 64 := by omega
    have h4 : c % 64 < 64 := by omega
    simp only [b64decode] at ihr ⊢
    cases hv : b64vals (b64encode rest) with
    | error e => rw [hv] at ihr; cases ihr
    | ok vs =>
      rw [hv] at ihr
      have ihr2 : b64unchunk vs = Except.ok rest := ihr
      simp only [b64encode, b64vals, b64val_b64char _ h1, b64val_b64char _ h2,
        b64val_b64char _ h3, b64val_b64char _ h4, hv]
      simp only [b64unchunk, ihr2]
      have e1 : a / 4 * 4 + (a % 4 * 16 + b / 16) / 16 = a := by omega
      have e2 : (a % 4 * 16 + b / 16) % 16 * 16 + (b % 16 * 4 + c / 64) / 4 = b := by omega
      have e3 : (b % 16 * 4 + c / 64) % 4 * 64 + c % 64 = c := by omega
      rw [e1, e2, e3]

theorem b64encode_inj (l₁ l₂ : List Nat) (h₁ : ∀ b ∈ l₁, b < 256) (h₂ : ∀ b ∈ l₂, b < 256)
    (h : b64encode l₁ = b64encode l₂) : l₁ = l₂ := by
  have e1 := b64_roundtrip l₁ h₁
  have e2 := b64_roundtrip l₂ h₂
  rw [h, e2] at e1
  exact (Except.ok.injEq _ _).mp e1.symm

theorem b64encode_chars (l : List Nat) (h : ∀ b ∈ l, b < 256) :
    ∀ c ∈ b64encode l, c ∈ b64Alphabet := by
  induction l using b64encode.induct with
  | case1 => simp [b64encode]
  | case2 a =>
    have ha : a < 256 := h a (by simp)
    intro c hc
    simp only [b64encode, List.mem_cons, List.mem_singleton] at hc
    rcases hc with rfl | rfl | hc
    · exact b64char_mem_alphabet _ (by omega)
    · exact b64char_mem_alphabet _ (by omega)
    · cases hc
  | case3 a b =>
    have ha : a < 256 := h a (by simp)
    have hb : b < 256 := h b (by simp)
    intro c hc
    simp only [b64encode, List.mem_cons, List.mem_singleton] at hc
    rcases hc with rfl | rfl | rfl | hc
    · exact b64char_mem_alphabet _ (by omega)
    · exact b64char_mem_alphabet _ (by omega)
    · exact b64char_mem_alphabet _ (by omega)
    · cases hc
  | case4 a b c rest ih =>
    have ha : a < 256 := h a (by simp)
    have hb : b < 256 := h b (by simp)
    have hc : c < 256 := h c (by simp)
    intro x hx
    simp only [b64encode, List.mem_cons] at hx
    rcases hx with rfl | rfl | rfl | rfl | hx
    · exact b64char_mem_alphabet _ (by omega)
    · exact b64char_mem_alphabet _ (by omega)
    · exact b64char_mem_alphabet _ (by omega)
    · exact b64char_mem_alphabet _ (by omega)
    · exact ih (fun y hy => h y (by simp [hy])) x hx

/-- Recover the OAEP seed from an encoded message block; decryption
determines it, which makes the encoder injective in the seed. -/
def emRecoverSeed (em : List Nat) : List Nat :=
  match em with
  | _ :: rest => xorBytes (rest.take hLen) (mgf1 (rest.drop hLen) hLen)
  | [] => []

theorem unpadSep_replicate (r : Nat) (msg : List Nat) :
    unpadSep (List.replicate r 0 ++ 1 :: msg) = .ok msg := by
  induction r with
  | zero => simp [unpadSep]
  | succ r ih => simpa [List.replicate_succ, unpadSep] using ih

theorem oaep_roundtrip (k : Nat) (msg seed : List Nat)
    (hm : msg.length + 2 * hLen + 2 ≤ k)
    (hs : seed.length = hLen)
    (hsb : ∀ b ∈ seed, b < 256)
    (hmb : ∀ b ∈ msg, b < 256) :
    ∃ em, oaepPad k msg seed = .ok em ∧
      em.length = k ∧ (∀ b ∈ em, b < 256) ∧ os2ip em < 256 ^ (k - 1) ∧
      oaepUnpad k em = .ok msg ∧ emRecoverSeed em = seed := by
  have hL : hLen = 32 := rfl
  have hcond : ¬ (msg.length + 2 * hLen + 2 > k) := by omega
  set lhash := sha256 [] with hlh
  set db := lhash ++ (List.replicate (k - msg.length - 2 * hLen - 2) 0 ++ 1 :: msg) with hdb
  set dbMask := mgf1 seed (k - hLen - 1) with hdm
  set maskedDb := xorBytes db dbMask with hmdb
  set seedMask := mgf1 maskedDb hLen with hsm
  set maskedSeed := xorBytes seed seedMask with hmsd
  have hlhash_len : lhash.length = 32 := sha256_length []
  have hdb_len : db.length = k - hLen - 1 := by
    rw [hdb]
    simp only [List.length_append, List.length_replicate, List.length_cons, hlhash_len]
    omega
  have hdm_len : dbMask.length = k - hLen - 1 := mgf1_length _ _
  have hmdb_len : maskedDb.length = k - hLen - 1 := by
    rw [hmdb, xorBytes_length, hdb_len, hdm_len, Nat.min_self]
  have hsm_len : seedMask.length = hLen := mgf1_length _ _
  have hmsd_len : maskedSeed.length = hLen := by
    rw [hmsd, xorBytes_length, hs, hsm_len, Nat.min_self]
  have hdb_lt : ∀ b ∈ db, b < 256 := by
    intro b hb
    rw [hdb] at hb
    simp only [List.mem_append, List.mem_replicate, List.mem_cons] at hb
    rcases hb with hb | hb | hb | hb
    · exact sha256_lt [] b hb
    · omega
    · omega
    · exact hmb b hb
  have hmdb_lt : ∀ b ∈ maskedDb, b < 256 := by
    rw [hmdb]
    exact xorBytes_lt _ _ hdb_lt (mgf1_lt _ _)
  have hmsd_lt : ∀ b ∈ maskedSeed, b < 256 := by
    rw [hmsd]
    exact xorBytes_lt _ _ hsb (mgf1_lt _ _)
  have hpad : oaepPad k msg seed = .ok (0 :: (maskedSeed ++ maskedDb)) := by
    unfold oaepPad
    rw [if_neg hcond]
  refine ⟨0 :: (maskedSeed ++ maskedDb), hpad, ?_, ?_, ?_, ?_, ?_⟩
  · simp only [List.length_cons, List.length_append, hmsd_len, hmdb_len]
    omega
  · intro b hb
    simp only [List.mem_cons, List.mem_append] at hb
    rcases hb with rfl | hb | hb
    · omega
    · exact hmsd_lt b hb
    · exact hmdb_lt b hb
  · rw [os2ip_cons]
    simp only [zero_mul, zero_add]
    have := os2ip_lt (maskedSeed ++ maskedDb) (by
      intro b hb
      rcases List.mem_append.mp hb with hb | hb
      · exact hmsd_lt b hb
      · exact hmdb_lt b hb)
    have hlen2 : (maskedSeed ++ maskedDb).length = k - 1 := by
      simp only [List.length_append, hmsd_len, hmdb_len]
      omega
    rwa [hlen2] at this
  · unfold oaepUnpad
    rw [if_neg (by omega : ¬ k < 2 * hLen + 2)]
    have htake : (maskedSeed ++ maskedDb).take hLen = maskedSeed := List.take_left' hmsd_len
    have hdrop : (maskedSeed ++ maskedDb).drop hLen = maskedDb := List.drop_left' hmsd_len
    simp only [htake, hdrop]
    have hseed_rec : xorBytes maskedSeed (mgf1 maskedDb hLen) = seed := by
      rw [hmsd, ← hsm]
      exact xorBytes_xorBytes seed seedMask (by rw [hs, hsm_len])
    rw [hseed_rec]
    have hdb_rec : xorBytes maskedDb (mgf1 seed maskedDb.length) = db := by
      rw [hmdb_len, hmdb, ← hdm]
      exact xorBytes_xorBytes db dbMask (by rw [hdb_len, hdm_len])
    rw [hdb_rec]
    have hdbtake : db.take hLen = lhash := by
      rw [hdb, hL]
      exact List.take_left' (by rw [hlhash_len])
    rw [if_pos ⟨trivial, hdbtake⟩]
    have hdbdrop : db.drop hLen = List.replicate (k - msg.length - 2 * hLen - 2) 0 ++ 1 :: msg := by
      rw [hdb, hL]
      exact List.drop_left' (by rw [hlhash_len])
    rw [hdbdrop]
    exact unpadSep_replicate _ _
  · unfold emRecoverSeed
    have htake : (maskedSeed ++ maskedDb).take hLen = maskedSeed := List.take_left' hmsd_len
    have hdrop : (maskedSeed ++ maskedDb).drop hLen = maskedDb := List.drop_left' hmsd_len
    simp only [htake, hdrop]
    rw [hmsd, ← hsm]
    exact xorBytes_xorBytes seed seedMask (by rw [hs, hsm_len])

theorem pow_modEq_self (p L t m : Nat) (hp : p.Prime) (hdvd : (p - 1) ∣ L) :
    m ^ (t * L + 1) ≡ m [MOD p] := by
  by_cases hdm : p ∣ m
  · have h0 : m ≡ 0 [MOD p] := (Nat.modEq_zero_iff_dvd).mpr hdm
    calc m ^ (t * L + 1) ≡ 0 ^ (t * L + 1) [MOD p] := h0.pow _
    _ = 0 := by simp
    _ ≡ m [MOD p] := h0.symm
  · have hco : Nat.Coprime m p := (Nat.Prime.coprime_iff_not_dvd hp).mpr hdm |>.symm
    have heuler : m ^ (p - 1) ≡ 1 [MOD p] := by
      have := Nat.ModEq.pow_totient hco
      rwa [Nat.totient_prime hp] at this
    obtain ⟨s, rfl⟩ := hdvd
    calc m ^ (t * ((p - 1) * s) + 1)
        = (m ^ (p - 1)) ^ (t * s) * m := by
          rw [← pow_mul, ← pow_succ]
          ring_nf
    _ ≡ 1 ^ (t * s) * m [MOD p] := (heuler.pow _).mul_right m
    _ = m := by simp

theorem rsa_roundtrip_nat (p q e d m : Nat) (hp : p.Prime) (hq : q.Prime) (hpq : p ≠ q)
    (hm : m < p * q) (hed : (e * d) % Nat.lcm (p - 1) (q - 1) = 1) :
    powmod (powmod m e (p * q)) d (p * q) = m := by
  have hn : 0 < p * q := Nat.mul_pos hp.pos hq.pos
  rw [powmod_eq _ _ _ hn, powmod_eq _ _ _ hn, ← Nat.pow_mod, ← pow_mul]
  have hed2 : e * d = Nat.lcm (p - 1) (q - 1) * (e * d / Nat.lcm (p - 1) (q - 1)) + 1 := by
    have := Nat.div_add_mod (e * d) (Nat.lcm (p - 1) (q - 1))
    omega
  set t := e * d / Nat.lcm (p - 1) (q - 1) with ht
  have hmod : m ^ (e * d) ≡ m [MOD p * q] := by
    have h1 : m ^ (e * d) ≡ m [MOD p] := by
      have := pow_modEq_self p (Nat.lcm (p - 1) (q - 1)) t m hp (Nat.dvd_lcm_left _ _)
      rwa [mul_comm t _, ← hed2] at this
    have h2 : m ^ (e * d) ≡ m [MOD q] := by
      have := pow_modEq_self q (Nat.lcm (p - 1) (q - 1)) t m hq (Nat.dvd_lcm_right _ _)
      rwa [mul_comm t _, ← hed2] at this
    exact (Nat.modEq_and_modEq_iff_modEq_mul ((Nat.coprime_primes hp hq).mpr hpq)).mp ⟨h1, h2⟩
  calc m ^ (e * d) % (p * q) = m % (p * q) := hmod
  _ = m := Nat.mod_eq_of_lt hm

theorem cast_powmod (p : Nat) (hp : 0 < p) (g m : Nat) :
    ((powmod g m p : Nat) : ZMod p) = (g : ZMod p) ^ m := by
  rw [powmod_eq _ _ _ hp, ZMod.natCast_mod, Nat.cast_pow]

theorem prime_of_pratt (p g r s : Nat) (hp1 : 1 < p) (hr : Nat.Prime r)
    (hfac : p - 1 = 2 ^ s * r)
    (hg1 : powmod g (p - 1) p = 1)
    (hg2 : powmod g ((p - 1) / 2) p ≠ 1)
    (hg3 : powmod g ((p - 1) / r) p ≠ 1) : p.Prime := by
  have hp0 : 0 < p := by omega
  haveI : NeZero p := ⟨by omega⟩
  haveI : Fact (1 < p) := ⟨hp1⟩
  apply lucas_primality p (g : ZMod p)
  · rw [← cast_powmod p hp0, hg1, Nat.cast_one]
  · intro qq hqq hdvd
    rw [hfac] at hdvd
    have hq2r : qq = 2 ∨ qq = r := by
      rcases (Nat.Prime.dvd_mul hqq).mp hdvd with h | h
      · exact Or.inl ((Nat.prime_dvd_prime_iff_eq hqq Nat.prime_two).mp (hqq.dvd_of_dvd_pow h))
      · exact Or.inr ((Nat.prime_dvd_prime_iff_eq hqq hr).mp h)
    intro hone
    have hcast : ((powmod g ((p - 1) / qq) p : Nat) : ZMod p) = 1 := by
      rw [cast_powmod p hp0]
      exact hone
    have hlt : powmod g ((p - 1) / qq) p < p := powmod_lt _ _ _ hp0
    have hval : powmod g ((p - 1) / qq) p = 1 := by
      have hv := congrArg ZMod.val hcast
      rw [ZMod.val_cast_of_lt hlt] at hv
      rw [hv]
      exact ZMod.val_one p
    rcases hq2r with rfl | rfl
    · exact hg2 hval
    · exact hg3 hval

/-- The first prime factor of the 1024-bit test modulus: 379 * 2^498 + 1. -/
def tstP : Nat := 310153760098159442183749723774415019672526833862580388803541857127108677209342914075189841247879418890046513321086316728123335057722640991802877989093377

/-- The second prime factor of the 1024-bit test modulus: 5659 * 2^498 + 1. -/
def tstQ : Nat := 4631029362521066710601160123586845900598494334639425910921486463014005288463513326521106363118072906329216936369465610460290113698291359822196534407069697

/-- The 1024-bit test modulus `tstP * tstQ` (128 bytes). -/
def tstN : Nat := 1436331169910891178465415660404361589513430715848982478396665954194739056726105701884146655091956665233498798925827627961209504318804208225288919911480510565874466838932389814442515448200181283060249932610596606949086527859878638363050811996162627673182633883992157168555535360084075659784398503528280096769

/-- A private exponent matching `e = 65537` modulo `(tstP-1)*(tstQ-1)`. -/
def tstD : Nat := 1011504836731882151452070265264545225457579196920489011175997128094813489861909401697652022101394265384769978284384737069040423773223837255622923244496387935004342734212764661550288084845319643691956074685751773674247082525659110075771119904789258788207154080624631303801640243344368945967160163243059511297

theorem tstP_prime : Nat.Prime tstP := by
  apply prime_of_pratt tstP 3 379 498
  · norm_num [tstP]
  · norm_num
  · decide
  · decide
  · decide
  · decide

theorem tstQ_prime : Nat.Prime tstQ := by
  apply prime_of_pratt tstQ 3 5659 498
  · norm_num [tstQ]
  · norm_num
  · decide
  · decide
  · decide
  · decide
theorem rsa_oaep_bytes_roundtrip (nn ee dd p q : Nat) (msg seed : List Nat)
    (hp : Nat.Prime p) (hq : Nat.Prime q) (hpq : p ≠ q) (hn : nn = p * q)
    (hed : (ee * dd) % Nat.lcm (p - 1) (q - 1) = 1)
    (hmsg : msg.length + 2 * hLen + 2 ≤ byteLen nn)
    (hmb : ∀ b ∈ msg, b < 256)
    (hseed : seed.length = hLen) (hsb : ∀ b ∈ seed, b < 256) :
    ∃ em ct, oaepPad (byteLen nn) msg seed = .ok em ∧
      rsaEncryptBytes nn ee msg seed = .ok ct ∧
      ct.length = byteLen nn ∧ (∀ b ∈ ct, b < 256) ∧
      rsaDecryptBytes nn dd ct = .ok msg ∧
      i2osp (powmod (os2ip ct) dd nn) (byteLen nn) = em ∧
      emRecoverSeed em = seed := by
  have hn0 : 0 < nn := by
    rw [hn]
    exact Nat.mul_pos hp.pos hq.pos
  obtain ⟨em, hpad, hemlen, hemlt, hemval, hunpad, hrec⟩ :=
    oaep_roundtrip (byteLen nn) msg seed hmsg hseed hsb hmb
  have hm0 : os2ip em < nn := by
    calc os2ip em < 256 ^ (byteLen nn - 1) := hemval
    _ ≤ nn := byteLen_lower nn hn0
  have hclt : powmod (os2ip em) ee nn < nn := powmod_lt _ _ _ hn0
  have hctlen : (i2osp (powmod (os2ip em) ee nn) (byteLen nn)).length = byteLen nn :=
    i2osp_length _ _
  have hctlt : ∀ b ∈ i2osp (powmod (os2ip em) ee nn) (byteLen nn), b < 256 := i2osp_lt _ _
  have henc : rsaEncryptBytes nn ee msg seed =
      .ok (i2osp (powmod (os2ip em) ee nn) (byteLen nn)) := by
    unfold rsaEncryptBytes
    simp only [hpad]
  have hos : os2ip (i2osp (powmod (os2ip em) ee nn) (byteLen nn)) = powmod (os2ip em) ee nn :=
    os2ip_i2osp _ _ (lt_of_lt_of_le hclt (le_of_lt (byteLen_upper nn)))
  have hdec_pow : powmod (os2ip (i2osp (powmod (os2ip em) ee nn) (byteLen nn))) dd nn
      = os2ip em := by
    rw [hos, hn]
    rw [hn] at hm0
    exact rsa_roundtrip_nat p q ee dd (os2ip em) hp hq hpq hm0 hed
  have hirec : i2osp (powmod (os2ip (i2osp (powmod (os2ip em) ee nn) (byteLen nn))) dd nn)
      (byteLen nn) = em := by
    rw [hdec_pow, ← hemlen]
    exact i2osp_os2ip em hemlt
  refine ⟨em, i2osp (powmod (os2ip em) ee nn) (byteLen nn), hpad, henc, hctlen, hctlt,
    ?_, hirec, hrec⟩
  unfold rsaDecryptBytes
  rw [if_neg (by rw [hctlen]; exact fun h => h rfl)]
  rw [if_neg (by rw [hos]; exact fun h => absurd hclt (not_lt.mpr h))]
  rw [hirec, hunpad]

theorem e2ee_roundtrip_core (srv : E2ee) (p q : Nat) (msg seed : List Nat)
    (hp : Nat.Prime p) (hq : Nat.Prime q) (hpq : p ≠ q)
    (hn : srv.public_key.n = p * q)
    (hnn : srv.private_key.n = srv.public_key.n)
    (hed : (srv.public_key.e * srv.private_key.d) % Nat.lcm (p - 1) (q - 1) = 1)
    (hmsg : msg.length + 2 * hLen + 2 ≤ byteLen srv.public_key.n)
    (hmb : ∀ b ∈ msg, b < 256) (hutf : utf8Valid msg = true)
    (hseed : seed.length = hLen) (hsb : ∀ b ∈ seed, b < 256) :
    ∃ ct, E2ee.encrypt srv msg seed = .ok (b64encode ct) ∧
      (∀ b ∈ ct, b < 256) ∧
      E2ee.decrypt srv (b64encode ct) = .ok msg ∧
      emRecoverSeed (i2osp (powmod (os2ip ct) srv.private_key.d srv.public_key.n)
        (byteLen srv.public_key.n)) = seed := by
  obtain ⟨em, ct, hpad, henc, hctlen, hctlt, hdec, hirec, hrec⟩ :=
    rsa_oaep_bytes_roundtrip srv.public_key.n srv.public_key.e srv.private_key.d p q msg seed
      hp hq hpq hn hed hmsg hmb hseed hsb
  refine ⟨ct, ?_, hctlt, ?_, ?_⟩
  · unfold E2ee.encrypt
    rw [henc]
  · unfold E2ee.decrypt
    rw [b64_roundtrip ct hctlt, hnn]
    show (match rsaDecryptBytes srv.public_key.n srv.private_key.d ct with
      | .error e => .error (E2eeError.rsa e)
      | .ok bytes => if utf8Valid bytes then .ok bytes else .error .encoding) = Except.ok msg
    rw [hdec]
    simp [hutf]
  · rw [hirec, hrec]

/-- Fixture: a server identity over the certified 1024-bit test key. -/
def tstSrv : E2ee := ⟨⟨tstN, tstD⟩, ⟨tstN, 65537⟩, [], []⟩

/-- Fixture: the bytes of the message of the example scenario. -/
def tstMsg : List Nat := [72, 105, 32, 109, 111, 109, 33]

/-- Fixture: a 32-byte OAEP seed. -/
def tstSeed : List Nat := List.range 32

/-- Fixture: a second, different 32-byte OAEP seed. -/
def tstSeed2 : List Nat := (List.range 32).map (fun i => i + 32)

/-- C1: for every ServerIdentity whose modulus is a product of two distinct
primes with matching exponents and one of the four supported sizes (128,
256, 384 or 512 modulus bytes for 1024/2048/3072/4096-bit keys), and every
UTF-8 message of length at most `modulus_bytes - 2*32 - 2`,
`E2ee::decrypt (E2ee::encrypt m) = Ok m`. -/
theorem e2ee_encrypt_decrypt_roundtrip (srv : E2ee) (p q : Nat) (msg seed : List Nat)
    (hp : Nat.Prime p) (hq : Nat.Prime q) (hpq : p ≠ q)
    (hn : srv.public_key.n = p * q)
    (hnn : srv.private_key.n = srv.public_key.n)
    (hed : (srv.public_key.e * srv.private_key.d) % Nat.lcm (p - 1) (q - 1) = 1)
    (hsize : byteLen srv.public_key.n = 128 ∨ byteLen srv.public_key.n = 256 ∨
      byteLen srv.public_key.n = 384 ∨ byteLen srv.public_key.n = 512)
    (hmsg : msg.length ≤ byteLen srv.public_key.n - 2 * 32 - 2)
    (hmb : ∀ b ∈ msg, b < 256) (hutf : utf8Valid msg = true)
    (hseed : seed.length = 32) (hsb : ∀ b ∈ seed, b < 256) :
    (E2ee.encrypt srv msg seed).bind (E2ee.decrypt srv) = .ok msg := by
  have hmsg2 : msg.length + 2 * hLen + 2 ≤ byteLen srv.public_key.n := by
    have hL : hLen = 32 := rfl
    rcases hsize with h | h | h | h <;> omega
  obtain ⟨ct, henc, _, hdec, _⟩ :=
    e2ee_roundtrip_core srv p q msg seed hp hq hpq hn hnn hed hmsg2 hmb hutf hseed hsb
  rw [henc]
  exact hdec

theorem e2ee_encrypt_decrypt_roundtrip_witness :
    (E2ee.encrypt tstSrv tstMsg tstSeed).bind (E2ee.decrypt tstSrv) = .ok tstMsg :=
  e2ee_encrypt_decrypt_roundtrip tstSrv tstP tstQ tstMsg tstSeed
    tstP_prime tstQ_prime (by decide) (by decide) rfl (by decide)
    (Or.inl (by decide)) (by decide) (by decide) (by decide) (by decide) (by decide)

/-- C7: with the same valid supported-size key and in-limit message, two
encryptions with different 32-byte random draws produce different
ciphertext strings, and both decrypt back to the message. -/
theorem e2ee_encrypt_randomized (srv : E2ee) (p q : Nat) (msg seed₁ seed₂ : List Nat)
    (hp : Nat.Prime p) (hq : Nat.Prime q) (hpq : p ≠ q)
    (hn : srv.public_key.n = p * q)
    (hnn : srv.private_key.n = srv.public_key.n)
    (hed : (srv.public_key.e * srv.private_key.d) % Nat.lcm (p - 1) (q - 1) = 1)
    (hsize : byteLen srv.public_key.n = 128 ∨ byteLen srv.public_key.n = 256 ∨
      byteLen srv.public_key.n = 384 ∨ byteLen srv.public_key.n = 512)
    (hmsg : msg.length ≤ byteLen srv.public_key.n - 2 * 32 - 2)
    (hmb : ∀ b ∈ msg, b < 256) (hutf : utf8Valid msg = true)
    (hs1 : seed₁.length = 32) (hs1b : ∀ b ∈ seed₁, b < 256)
    (hs2 : seed₂.length = 32) (hs2b : ∀ b ∈ seed₂, b < 256)
    (hne : seed₁ ≠ seed₂) :
    ∃ ct₁ ct₂, E2ee.encrypt srv msg seed₁ = .ok ct₁ ∧ E2ee.encrypt srv msg seed₂ = .ok ct₂ ∧
      ct₁ ≠ ct₂ ∧ E2ee.decrypt srv ct₁ = .ok msg ∧ E2ee.decrypt srv ct₂ = .ok msg := by
  have hmsg2 : msg.length + 2 * hLen + 2 ≤ byteLen srv.public_key.n := by
    have hL : hLen = 32 := rfl
    rcases hsize with h | h | h | h <;> omega
  obtain ⟨d₁, henc₁, hlt₁, hdec₁, hrec₁⟩ :=
    e2ee_roundtrip_core srv p q msg seed₁ hp hq hpq hn hnn hed hmsg2 hmb hutf hs1 hs1b
  obtain ⟨d₂, henc₂, hlt₂, hdec₂, hrec₂⟩ :=
    e2ee_roundtrip_core srv p q msg seed₂ hp hq hpq hn hnn hed hmsg2 hmb hutf hs2 hs2b
  refine ⟨b64encode d₁, b64encode d₂, henc₁, henc₂, ?_, hdec₁, hdec₂⟩
  intro heq
  have hd : d₁ = d₂ := b64encode_inj _ _ hlt₁ hlt₂ heq
  apply hne
  rw [← hrec₁, ← hrec₂, hd]

theorem e2ee_encrypt_randomized_witness :
    ∃ ct₁ ct₂, E2ee.encrypt tstSrv tstMsg tstSeed = .ok ct₁ ∧
      E2ee.encrypt tstSrv tstMsg tstSeed2 = .ok ct₂ ∧ ct₁ ≠ ct₂ ∧
      E2ee.decrypt tstSrv ct₁ = .ok tstMsg ∧ E2ee.decrypt tstSrv ct₂ = .ok tstMsg :=
  e2ee_encrypt_randomized tstSrv tstP tstQ tstMsg tstSeed tstSeed2
    tstP_prime tstQ_prime (by decide) (by decide) rfl (by decide)
    (Or.inl (by decide)) (by decide) (by decide) (by decide) (by decide) (by decide)
    (by decide) (by decide) (by decide)

/-- Fixture: a 69-byte modulus (no primality needed where only the shape of
encryption or a trivial private exponent is exercised). -/
def smallN : Nat := 14742040721959145907193572581985425355144223517251720423344555860334469384344331453461432520225229560708860839963921269139728846210643721220943102544658968920505450495

/-- Fixture: a server identity over `smallN` with public exponent 3 and the
identity private exponent 1. -/
def smallSrv : E2ee := ⟨⟨smallN, 1⟩, ⟨smallN, 3⟩, [], []⟩

/-- Fixture: a client identity over `smallN` with public exponent 3. -/
def smallCl : PublicE2ee := ⟨⟨smallN, 3⟩, []⟩

/-- Fixture: the ciphertext of the empty message under `smallSrv`/`smallCl`
with seed `tstSeed`. -/
def wCt4 : List Char := "hk2UT1SEzrxT8Xqi0du3mb+S8/7fqwnfBBsPwgV+kUKrqrGM/NFY/elkyR0rFUX/8hIeIa9rgqX8J2dxyQi+fBCarpUS".toList

/-- Fixture: a ciphertext that decrypts under `smallSrv` to the bytes
`[97, 0, 98]`, which contain an interior NUL. -/
def wCt10 : List Char := "AItAreNA0mQboXzBl850MYtrLsy0q3S722PaH0Z7iW1Nk0TEf8pK9xdAftpbvATgopJ6ydT8IOo/GMaB1x4xwtEFx5Vo".toList

theorem oaepPad_too_long (k : Nat) (msg seed : List Nat)
    (h : msg.length > k - 2 * 32 - 2) :
    oaepPad k msg seed = .error .messageTooLong := by
  unfold oaepPad
  rw [if_pos]
  show msg.length + 2 * hLen + 2 > k
  have hL : hLen = 32 := rfl
  omega

/-- C3: encrypting a message longer than the OAEP payload limit of the held
key fails with the crypto error `MessageTooLong`, on both the server and the
client identity; no ciphertext is produced. -/
theorem encrypt_oversized_rejected (srv : E2ee) (cl : PublicE2ee) (msg seed : List Nat)
    (h1 : msg.length > byteLen srv.public_key.n - 2 * 32 - 2)
    (h2 : msg.length > byteLen cl.public_key.n - 2 * 32 - 2) :
    E2ee.encrypt srv msg seed = .error (.rsa .messageTooLong) ∧
    PublicE2ee.encrypt cl msg seed = .error (.rsa .messageTooLong) := by
  constructor
  · unfold E2ee.encrypt rsaEncryptBytes
    simp only [oaepPad_too_long _ _ _ h1]
  · unfold PublicE2ee.encrypt rsaEncryptBytes
    simp only [oaepPad_too_long _ _ _ h2]

theorem encrypt_oversized_rejected_witness :
    E2ee.encrypt tstSrv (List.replicate 63 65) tstSeed = .error (.rsa .messageTooLong) ∧
    PublicE2ee.encrypt smallCl (List.replicate 63 65) tstSeed =
      .error (.rsa .messageTooLong) :=
  encrypt_oversized_rejected tstSrv smallCl (List.replicate 63 65) tstSeed
    (by decide) (by decide)

theorem rsaEncryptBytes_ok_shape (nn ee : Nat) (msg seed data : List Nat)
    (h : rsaEncryptBytes nn ee msg seed = .ok data) :
    data.length = byteLen nn ∧ ∀ b ∈ data, b < 256 := by
  unfold rsaEncryptBytes at h
  simp only [] at h
  cases hpad : oaepPad (byteLen nn) msg seed with
  | error e => rw [hpad] at h; cases h
  | ok em =>
    rw [hpad] at h
    cases h
    exact ⟨i2osp_length _ _, i2osp_lt _ _⟩

/-- C4: every ciphertext string returned by `E2ee::encrypt` or
`PublicE2ee::encrypt` consists only of standard-alphabet base64 characters
(in particular no padding sign and no whitespace) and is the unpadded
base64 encoding of a byte string no longer than the modulus byte length. -/
theorem encrypt_output_base64 (srv : E2ee) (cl : PublicE2ee) (msg seed : List Nat)
    (ct₁ ct₂ : List Char)
    (h1 : E2ee.encrypt srv msg seed = .ok ct₁)
    (h2 : PublicE2ee.encrypt cl msg seed = .ok ct₂) :
    (∀ c ∈ ct₁, c ∈ b64Alphabet) ∧
    (∃ bs, b64decode ct₁ = .ok bs ∧ bs.length ≤ byteLen srv.public_key.n) ∧
    (∀ c ∈ ct₂, c ∈ b64Alphabet) ∧
    (∃ bs, b64decode ct₂ = .ok bs ∧ bs.length ≤ byteLen cl.public_key.n) ∧
    (∀ c ∈ b64Alphabet, c ≠ Char.ofNat 61 ∧ c ≠ Char.ofNat 32 ∧ c ≠ Char.ofNat 9 ∧
      c ≠ Char.ofNat 10 ∧ c ≠ Char.ofNat 13) := by
  have hshape1 : ∃ data, rsaEncryptBytes srv.public_key.n srv.public_key.e msg seed = .ok data ∧
      ct₁ = b64encode data := by
    unfold E2ee.encrypt at h1
    cases henc : rsaEncryptBytes srv.public_key.n srv.public_key.e msg seed with
    | error e => rw [henc] at h1; cases h1
    | ok data =>
      rw [henc] at h1
      cases h1
      exact ⟨data, rfl, rfl⟩
  have hshape2 : ∃ data, rsaEncryptBytes cl.public_key.n cl.public_key.e msg seed = .ok data ∧
      ct₂ = b64encode data := by
    unfold PublicE2ee.encrypt at h2
    cases henc : rsaEncryptBytes cl.public_key.n cl.public_key.e msg seed with
    | error e => rw [henc] at h2; cases h2
    | ok data =>
      rw [henc] at h2
      cases h2
      exact ⟨data, rfl, rfl⟩
  obtain ⟨d₁, he₁, rfl⟩ := hshape1
  obtain ⟨d₂, he₂, rfl⟩ := hshape2
  obtain ⟨hlen₁, hlt₁⟩ := rsaEncryptBytes_ok_shape _ _ _ _ _ he₁
  obtain ⟨hlen₂, hlt₂⟩ := rsaEncryptBytes_ok_shape _ _ _ _ _ he₂
  refine ⟨b64encode_chars _ hlt₁, ⟨d₁, b64_roundtrip _ hlt₁, le_of_eq hlen₁⟩,
    b64encode_chars _ hlt₂, ⟨d₂, b64_roundtrip _ hlt₂, le_of_eq hlen₂⟩, by decide⟩

theorem encrypt_output_base64_witness :
    (∀ c ∈ wCt4, c ∈ b64Alphabet) ∧
    (∃ bs, b64decode wCt4 = .ok bs ∧ bs.length ≤ byteLen smallSrv.public_key.n) ∧
    (∀ c ∈ wCt4, c ∈ b64Alphabet) ∧
    (∃ bs, b64decode wCt4 = .ok bs ∧ bs.length ≤ byteLen smallCl.public_key.n) ∧
    (∀ c ∈ b64Alphabet, c ≠ Char.ofNat 61 ∧ c ≠ Char.ofNat 32 ∧ c ≠ Char.ofNat 9 ∧
      c ≠ Char.ofNat 10 ∧ c ≠ Char.ofNat 13) :=
  encrypt_output_base64 smallSrv smallCl [] tstSeed wCt4 wCt4 (by decide) (by decide)

/-- C2: `E2ee::decrypt` classifies every rejection: a base64 decoding
failure surfaces as the `Decoding` (encoding) error, an RSA/OAEP failure as
the `Rsa` (crypto) error, invalid UTF-8 in the recovered bytes as the
`Encoding` error; and a success implies every stage succeeded, so no
rejected input is silently accepted. -/
theorem decrypt_error_classification (srv : E2ee) (ct : List Char) :
    (∀ e, b64decode ct = .error e → E2ee.decrypt srv ct = .error (.decoding e)) ∧
    (∀ data e, b64decode ct = .ok data →
      rsaDecryptBytes srv.private_key.n srv.private_key.d data = .error e →
      E2ee.decrypt srv ct = .error (.rsa e)) ∧
    (∀ data bytes, b64decode ct = .ok data →
      rsaDecryptBytes srv.private_key.n srv.private_key.d data = .ok bytes →
      utf8Valid bytes = false → E2ee.decrypt srv ct = .error .encoding) ∧
    (∀ m, E2ee.decrypt srv ct = .ok m →
      ∃ data, b64decode ct = .ok data ∧
        rsaDecryptBytes srv.private_key.n srv.private_key.d data = .ok m ∧
        utf8Valid m = true) := by
  refine ⟨?_, ?_, ?_, ?_⟩
  · intro e he
    unfold E2ee.decrypt
    rw [he]
  · intro data e hb hr
    unfold E2ee.decrypt
    rw [hb]
    show (match rsaDecryptBytes srv.private_key.n srv.private_key.d data with
      | .error e => .error (E2eeError.rsa e)
      | .ok bytes => if utf8Valid bytes then .ok bytes else .error .encoding) =
      Except.error (E2eeError.rsa e)
    rw [hr]
  · intro data bytes hb hr hu
    unfold E2ee.decrypt
    rw [hb]
    show (match rsaDecryptBytes srv.private_key.n srv.private_key.d data with
      | .error e => .error (E2eeError.rsa e)
      | .ok bytes => if utf8Valid bytes then .ok bytes else .error .encoding) =
      Except.error E2eeError.encoding
    rw [hr]
    simp [hu]
  · intro m hm
    unfold E2ee.decrypt at hm
    cases hb : b64decode ct with
    | error e => rw [hb] at hm; cases hm
    | ok data =>
      rw [hb] at hm
      have hm2 : (match rsaDecryptBytes srv.private_key.n srv.private_key.d data with
        | .error e => .error (E2eeError.rsa e)
        | .ok bytes => if utf8Valid bytes then .ok bytes else .error .encoding) =
        Except.ok m := hm
      cases hr : rsaDecryptBytes srv.private_key.n srv.private_key.d data with
      | error e => rw [hr] at hm2; cases hm2
      | ok bytes =>
        rw [hr] at hm2
        have hm3 : (if utf8Valid bytes = true then Except.ok bytes
            else Except.error E2eeError.encoding) = Except.ok m := hm2
        by_cases hu : utf8Valid bytes
        · rw [if_pos hu] at hm3
          cases hm3
          exact ⟨data, rfl, hr, hu⟩
        · rw [if_neg hu] at hm3
          cases hm3

/-- Fixture: a string that is not valid base64. -/
def wBadCt : List Char := "not_base64!".toList

theorem decrypt_error_classification_witness :
    b64decode wBadCt = .error .invalidByte ∧
    E2ee.decrypt tstSrv wBadCt = .error (.decoding .invalidByte) :=
  ⟨by decide, (decrypt_error_classification tstSrv wBadCt).1 .invalidByte (by decide)⟩

/-- C5: a successful `E2ee::new_from_pem` or `PublicE2ee::new` stores and
returns the exact construction strings: the PEM accessors give back the
inputs byte for byte, with no re-encoding. -/
theorem pem_passthrough
    (pp : List Char → Except E2eeError RsaPublicKey)
    (ps : List Char → Except E2eeError RsaPrivateKey)
    (pc : List Char → Except PublicE2eeError RsaPublicKey)
    (privPem pubPem clPem : List Char) :
    (∀ srv, E2ee.new_from_pem pp ps privPem pubPem = .ok srv →
      srv.get_private_key_pem = privPem ∧ srv.get_public_key_pem = pubPem) ∧
    (∀ cl, PublicE2ee.new pc clPem = .ok cl → cl.get_public_key_pem = clPem) := by
  constructor
  · intro srv h
    unfold E2ee.new_from_pem at h
    cases h1 : pp pubPem with
    | error e => rw [h1] at h; cases h
    | ok pk =>
      rw [h1] at h
      cases h2 : ps privPem with
      | error e => rw [h2] at h; cases h
      | ok sk =>
        rw [h2] at h
        have h3 : Except.ok (⟨sk, pk, privPem, pubPem⟩ : E2ee) = Except.ok srv := h
        cases h3
        exact ⟨rfl, rfl⟩
  · intro cl h
    unfold PublicE2ee.new at h
    cases h1 : pc clPem with
    | error e => rw [h1] at h; cases h
    | ok pk =>
      rw [h1] at h
      have h2 : Except.ok (⟨pk, clPem⟩ : PublicE2ee) = Except.ok cl := h
      cases h2
      rfl

/-- Fixture: a parser that accepts everything as the small public key. -/
def wParsePub : List Char → Except E2eeError RsaPublicKey := fun _ => .ok ⟨smallN, 3⟩

/-- Fixture: a parser that accepts everything as the small private key. -/
def wParsePriv : List Char → Except E2eeError RsaPrivateKey := fun _ => .ok ⟨smallN, 1⟩

/-- Fixture: a client parser that accepts everything as the small key. -/
def wParseCl : List Char → Except PublicE2eeError RsaPublicKey := fun _ => .ok ⟨smallN, 3⟩

/-- Fixture: the server identity produced by the fixture parsers. -/
def wSrv5 : E2ee := ⟨⟨smallN, 1⟩, ⟨smallN, 3⟩, "PRIV".toList, "PUB".toList⟩

theorem pem_passthrough_witness :
    E2ee.new_from_pem wParsePub wParsePriv "PRIV".toList "PUB".toList = .ok wSrv5 ∧
    wSrv5.get_private_key_pem = "PRIV".toList ∧ wSrv5.get_public_key_pem = "PUB".toList :=
  ⟨rfl, (pem_passthrough wParsePub wParsePriv wParseCl "PRIV".toList "PUB".toList
    "CL".toList).1 wSrv5 rfl⟩

/-- C6: a successful `save_keys_to_files` writes the two cached PEM strings
verbatim (reading the two paths back yields exactly them), reconstructing a
ServerIdentity from them gives byte-for-byte identical accessor results,
and a failing create or write step yields the persistence error
`FileWriteError`. -/
theorem save_keys_persistence (canCreate canWrite : List Char → Bool) (srv : E2ee)
    (pp : List Char → Except E2eeError RsaPublicKey)
    (ps : List Char → Except E2eeError RsaPrivateKey)
    (privPath pubPath : List Char) (fs : FileSys)
    (hne : privPath ≠ pubPath)
    (hppub : pp srv.public_key_pem = .ok srv.public_key)
    (hppriv : ps srv.private_key_pem = .ok srv.private_key) :
    (∀ fs2, E2ee.save_keys_to_files canCreate canWrite srv privPath pubPath fs = .ok fs2 →
      fsRead fs2 privPath = some srv.private_key_pem ∧
      fsRead fs2 pubPath = some srv.public_key_pem ∧
      (∃ srv2, E2ee.new_from_pem pp ps srv.private_key_pem srv.public_key_pem = .ok srv2 ∧
        srv2.get_private_key_pem = srv.get_private_key_pem ∧
        srv2.get_public_key_pem = srv.get_public_key_pem)) ∧
    ((canCreate privPath = false ∨ canCreate pubPath = false ∨
      canWrite privPath = false ∨ canWrite pubPath = false) →
      ∃ m, E2ee.save_keys_to_files canCreate canWrite srv privPath pubPath fs =
        .error (.fileWriteError m)) := by
  constructor
  on_goal 2 =>
    intro hfail
    unfold E2ee.save_keys_to_files
    by_cases h1 : canCreate privPath
    · rw [if_neg (by simpa using h1)]
      by_cases h2 : canCreate pubPath
      · rw [if_neg (by simpa using h2)]
        by_cases h3 : canWrite privPath
        · rw [if_neg (by simpa using h3)]
          by_cases h4 : canWrite pubPath
          · exfalso
            rcases hfail with h | h | h | h <;> simp_all
          · rw [if_pos (by simpa using h4)]
            exact ⟨_, rfl⟩
        · rw [if_pos (by simpa using h3)]
          exact ⟨_, rfl⟩
      · rw [if_pos (by simpa using h2)]
        exact ⟨_, rfl⟩
    · rw [if_pos (by simpa using h1)]
      exact ⟨_, rfl⟩
  intro fs2 hsave
  unfold E2ee.save_keys_to_files at hsave
  by_cases h1 : canCreate privPath
  on_goal 2 => rw [if_pos (by simpa using h1)] at hsave; cases hsave
  rw [if_neg (by simpa using h1)] at hsave
  by_cases h2 : canCreate pubPath
  on_goal 2 => rw [if_pos (by simpa using h2)] at hsave; cases hsave
  rw [if_neg (by simpa using h2)] at hsave
  by_cases h3 : canWrite privPath
  on_goal 2 => rw [if_pos (by simpa using h3)] at hsave; cases hsave
  rw [if_neg (by simpa using h3)] at hsave
  by_cases h4 : canWrite pubPath
  on_goal 2 => rw [if_pos (by simpa using h4)] at hsave; cases hsave
  rw [if_neg (by simpa using h4)] at hsave
  have hfs : fsWrite (fsWrite (fsWrite (fsWrite fs privPath []) pubPath [])
      privPath srv.private_key_pem) pubPath srv.public_key_pem = fs2 :=
    (Except.ok.injEq _ _).mp hsave
  subst hfs
  refine ⟨?_, ?_, ?_⟩
  · simp only [fsRead, fsWrite, List.find?]
    rw [decide_eq_false (by simpa using Ne.symm hne)]
    simp
  · simp [fsRead, fsWrite, List.find?]
  · refine ⟨⟨srv.private_key, srv.public_key, srv.private_key_pem, srv.public_key_pem⟩,
      ?_, rfl, rfl⟩
    unfold E2ee.new_from_pem
    rw [hppub, hppriv]

/-- Fixture: one-file filesystem state left by the witness save. -/
def wFs2 : FileSys :=
  fsWrite (fsWrite (fsWrite (fsWrite [] "priv.pem".toList []) "pub.pem".toList [])
    "priv.pem".toList wSrv5.private_key_pem) "pub.pem".toList wSrv5.public_key_pem

theorem save_keys_persistence_witness :
    E2ee.save_keys_to_files (fun _ => true) (fun _ => true) wSrv5 "priv.pem".toList
      "pub.pem".toList [] = .ok wFs2 ∧
    fsRead wFs2 "priv.pem".toList = some wSrv5.private_key_pem ∧
    fsRead wFs2 "pub.pem".toList = some wSrv5.public_key_pem ∧
    (∃ srv2, E2ee.new_from_pem wParsePub wParsePriv wSrv5.private_key_pem
        wSrv5.public_key_pem = .ok srv2 ∧
      srv2.get_private_key_pem = wSrv5.get_private_key_pem ∧
      srv2.get_public_key_pem = wSrv5.get_public_key_pem) := by
  refine ⟨by decide, ?_⟩
  exact (save_keys_persistence (fun _ => true) (fun _ => true) wSrv5 wParsePub wParsePriv
    "priv.pem".toList "pub.pem".toList [] (by decide) rfl rfl).1 wFs2 (by decide)

/-- C8: the boundary constructor returns null exactly when the integer is
not one of 1024/2048/3072/4096 or key generation fails; on success it
returns the non-null handle, and the return type carries no error detail. -/
theorem ffi_server_new_null (key_size : Int) (gen : KeySize → Except E2eeError E2ee) :
    (e2ee_server_new key_size gen = none ↔
      keySizeOfInt key_size = none ∨
        ∃ ks e, keySizeOfInt key_size = some ks ∧ gen ks = .error e) ∧
    (∀ ks sdk, keySizeOfInt key_size = some ks → gen ks = .ok sdk →
      e2ee_server_new key_size gen = some sdk) ∧
    (keySizeOfInt key_size = none ↔
      ¬ (key_size = 1024 ∨ key_size = 2048 ∨ key_size = 3072 ∨ key_size = 4096)) := by
  refine ⟨?_, ?_, ?_⟩
  · unfold e2ee_server_new
    cases hks : keySizeOfInt key_size with
    | none => simp
    | some ks =>
      cases hg : gen ks with
      | ok sdk => simp [hg]
      | error e => simp [hg]
  · intro ks sdk hks hg
    unfold e2ee_server_new
    rw [hks]
    show (match gen ks with | .ok sdk => some sdk | .error _ => none) = some sdk
    rw [hg]
  · unfold keySizeOfInt
    by_cases h1 : key_size = 1024
    · simp [h1]
    by_cases h2 : key_size = 2048
    · simp [h1, h2]
    by_cases h3 : key_size = 3072
    · simp [h1, h2, h3]
    by_cases h4 : key_size = 4096
    · simp [h1, h2, h3, h4]
    simp [h1, h2, h3, h4]

/-- Fixture: a key generator that always succeeds with the small server. -/
def wGen : KeySize → Except E2eeError E2ee := fun _ => .ok smallSrv

/-- Fixture: a key generator that always fails. -/
def wGenFail : KeySize → Except E2eeError E2ee := fun _ => .error .pkcs8

theorem ffi_server_new_null_witness :
    e2ee_server_new 512 wGen = none ∧
    e2ee_server_new 2048 wGen = some smallSrv ∧
    e2ee_server_new 2048 wGenFail = none :=
  ⟨((ffi_server_new_null 512 wGen).1).mpr (Or.inl (by decide)),
   ((ffi_server_new_null 2048 wGen).2).1 .bit2048 smallSrv (by decide) rfl,
   ((ffi_server_new_null 2048 wGenFail).1).mpr
     (Or.inr ⟨.bit2048, .pkcs8, by decide, rfl⟩)⟩

/-- C9: releasing a null server or client handle is a safe no-op (the null
check precedes the deallocation), releasing a non-null handle drops that
allocation, while the string release function has no null check, so a null
pointer reaches `CString::from_raw` whose contract it violates (modelled as
the undefined-behavior result `none`). -/
theorem ffi_free_null_behavior (h : Heap) (a : Nat) :
    e2ee_server_free none h = h ∧ e2ee_client_free none h = h ∧
    e2ee_server_free_string none h = none ∧
    e2ee_server_free (some a) h = List.erase h a ∧
    e2ee_client_free (some a) h = List.erase h a ∧
    e2ee_server_free_string (some a) h = some (List.erase h a) :=
  ⟨rfl, rfl, rfl, rfl, rfl, rfl⟩

/-- C10: when `E2ee::decrypt` succeeds but the plaintext bytes contain an
interior NUL, the boundary decrypt panics in `CString::new(..).unwrap()`
instead of returning the string or the null sentinel; when the plaintext
has no interior NUL the boundary returns a non-null C string of exactly
those bytes. -/
theorem ffi_decrypt_nul_panic (srv : E2ee) (ct : List Char) (m : List Nat)
    (hdec : E2ee.decrypt srv ct = .ok m) :
    (0 ∈ m → e2ee_server_decrypt srv ct = .panic) ∧
    (0 ∉ m → e2ee_server_decrypt srv ct = .str m) := by
  unfold e2ee_server_decrypt
  rw [hdec]
  constructor
  · intro h
    show (match cstringNew m with | none => FfiStrResult.panic | some s => .str s) = .panic
    unfold cstringNew
    rw [if_pos h]
  · intro h
    show (match cstringNew m with | none => FfiStrResult.panic | some s => .str s) = .str m
    unfold cstringNew
    rw [if_neg h]

/-- Fixture: the OAEP-encoded block carried by `wCt10`. -/
def wEm10 : List Nat := [0, 139, 64, 173, 227, 64, 210, 100, 27, 161, 124, 193, 151, 206, 116, 49, 139, 107, 46, 204, 180, 171, 116, 187, 219, 99, 218, 31, 70, 123, 137, 109, 77, 147, 68, 196, 127, 202, 74, 247, 23, 64, 126, 218, 91, 188, 4, 224, 162, 146, 122, 201, 212, 252, 32, 234, 63, 24, 198, 129, 215, 30, 49, 194, 209, 5, 199, 149, 104]

theorem wCt10_decrypts : E2ee.decrypt smallSrv wCt10 = .ok [97, 0, 98] := by
  unfold E2ee.decrypt
  rw [show b64decode wCt10 = .ok wEm10 from by decide]
  show (match rsaDecryptBytes smallSrv.private_key.n smallSrv.private_key.d wEm10 with
    | .error e => .error (E2eeError.rsa e)
    | .ok bytes => if utf8Valid bytes then .ok bytes else .error .encoding) =
    Except.ok [97, 0, 98]
  rw [show rsaDecryptBytes smallSrv.private_key.n smallSrv.private_key.d wEm10 =
    .ok [97, 0, 98] from by decide]
  decide

theorem ffi_decrypt_nul_panic_witness :
    E2ee.decrypt smallSrv wCt10 = .ok [97, 0, 98] ∧
    e2ee_server_decrypt smallSrv wCt10 = .panic :=
  ⟨wCt10_decrypts,
   (ffi_decrypt_nul_panic smallSrv wCt10 [97, 0, 98] wCt10_decrypts).1 (by decide)⟩
